import Mathlib

/-!
Verification of the rtdriver lattice simulator: a 2-D lattice of point
masses coupled by linear springs to their four direct neighbors and to the
coordinate origin. We embed the grid indexing functions (filter_indices,
index, deindex), the stencil, the builder, and the per-step acceleration
computation (compute_acc, update) from src/simulator.rs and src/lib.rs.

The repository declares a module vector whose source file is absent; the
vector operations used below are therefore modelled from the spec
(section 4.1): elementwise add/subtract, scalar map, sum/product reduction,
boolean all-reduction, from_idx construction, zero and broadcast. Physical
2-D vectors are embedded as pairs, integer coordinate vectors of generic
dimension D as lists of integers. The scalar type of physical quantities
(f32 in the driver) is embedded as an abstract commutative ring, reading
the floating point arithmetic as exact.

set_option note: machine integers (usize and isize) are embedded as Nat and
Int; the quantities involved (coordinates below SIZE, flat indices below
SIZE to the power D) stay far from the word size in the driver program, so
overflow is not modelled.
-/

set_option maxHeartbeats 1000000
set_option linter.unusedVariables false

namespace RTDriver

/-- Modelled from the spec: the row-major stride vector built by
from_idx in index and deindex, entry i being SIZE^(D-1-i)
(simulator.rs lines 74 and 84: Vector::from_idx of the power). -/
def strides (SIZE D : ℕ) : List ℕ :=
  (List.range D).map (fun i => SIZE ^ (D - 1 - i))

/-- Embedding of filter_indices (simulator.rs 60-68): bounds-check every
component of a signed coordinate vector against the range 0 to SIZE
(exclusive), and on success cast componentwise to unsigned. The all
reduction and the map are the spec-modelled vector operations. -/
def filter_indices (SIZE : ℕ) (indices : List ℤ) : Option (List ℕ) :=
  if indices.all (fun i => 0 ≤ i ∧ i < (SIZE : ℤ)) then
    some (indices.map Int.toNat)
  else
    none

/-- Embedding of index (simulator.rs 70-77): bounds-check through
filter_indices, then the dot product of the coordinates with the
row-major stride vector. -/
def index (SIZE D : ℕ) (indices : List ℤ) : Option ℕ :=
  match filter_indices SIZE indices with
  | some ix => some ((List.zipWith (fun a b => a * b) ix (strides SIZE D)).sum)
  | none => none

/-- Embedding of deindex (simulator.rs 79-88): range-check the flat index
against 0 to SIZE^D (exclusive), then recover each coordinate by dividing
by the row-major stride and reducing mod SIZE. -/
def deindex (SIZE D : ℕ) (k : ℤ) : Option (List ℕ) :=
  if 0 ≤ k ∧ k < (SIZE : ℤ) ^ D then
    some ((List.range D).map (fun i => (k.toNat / SIZE ^ (D - 1 - i)) % SIZE))
  else
    none

/-- Big-endian base-b digit extraction, D digits: recursive restatement of
the deindex formula, used to prove the inverse laws by induction. -/
def toDigitsBE (b : ℕ) : ℕ → ℕ → List ℕ
  | 0, _ => []
  | D + 1, k => toDigitsBE b D (k / b) ++ [k % b]

/-- Big-endian base-b evaluation of a digit list: recursive restatement of
the dot product with the row-major stride vector. -/
def ofDigitsBE (b : ℕ) (ds : List ℕ) : ℕ :=
  ds.foldl (fun acc d => acc * b + d) 0

/-- The flat-index value the spec ascribes to a valid coordinate vector:
the sum over axes of coordinate times SIZE^(D-1-i), row-major with the
last axis fastest-varying (spec section 4.2). Stated from the spec text,
to be compared against the index embedding. -/
def rowMajorSum (SIZE D : ℕ) (c : List ℤ) : ℕ :=
  ((List.range D).map (fun i => (c.getD i 0).toNat * SIZE ^ (D - 1 - i))).sum

/-- Modelled from the spec: elementwise addition of two 2-D vectors
(section 4.1). -/
def addV {T : Type} [Add T] (a b : T × T) : T × T := (a.1 + b.1, a.2 + b.2)

/-- Modelled from the spec: elementwise subtraction of two 2-D vectors
(section 4.1). -/
def subV {T : Type} [Sub T] (a b : T × T) : T × T := (a.1 - b.1, a.2 - b.2)

/-- Modelled from the spec: elementwise negation of a 2-D vector, the unary
minus applied to the mapped position in compute_acc. -/
def negV {T : Type} [Neg T] (a : T × T) : T × T := (-a.1, -a.2)

/-- Modelled from the spec: elementwise map over a 2-D vector
(section 4.1). -/
def mapV {T : Type} (f : T → T) (a : T × T) : T × T := (f a.1, f a.2)

/-- Modelled from the spec: the all-zero 2-D vector (section 4.1). -/
def zeroV {T : Type} [Zero T] : T × T := (0, 0)

/-- Scalar multiple of a 2-D vector, used to state the spec formulas
-origin_stiffness * p and -stiffness * p_neighbor. -/
def smulV {T : Type} [Mul T] (c : T) (a : T × T) : T × T := (c * a.1, c * a.2)

/-- Sum of a list of 2-D vectors, used to state the spec-side coupling
sum. -/
def sumV {T : Type} [Add T] [Zero T] (l : List (T × T)) : T × T :=
  l.foldr addV zeroV

/-- Embedding of STENCIL (lib.rs 9-23) at DIMS = 2: for each axis a pair of
unit offsets, +1 then -1 along that axis. -/
def STENCIL : List (List (ℤ × ℤ)) := [[(1, 0), (-1, 0)], [(0, 1), (0, -1)]]

/-- The stencil in the flattened order compute_acc iterates it
(axis 0 up, axis 0 down, axis 1 up, axis 1 down). -/
def stencilFlat : List (ℤ × ℤ) := STENCIL.flatten

/-- Embedding of filter_indices at DIMS = 2 with a dependently typed
result: the same bounds check as filter_indices, returning in-range
indices carrying their bound, as needed to read the position grids. -/
def filterIndicesFin (SIZE : ℕ) (c : ℤ × ℤ) : Option (Fin SIZE × Fin SIZE) :=
  if h : (0 ≤ c.1 ∧ c.1 < (SIZE : ℤ)) ∧ (0 ≤ c.2 ∧ c.2 < (SIZE : ℤ)) then
    some (⟨c.1.toNat, by omega⟩, ⟨c.2.toNat, by omega⟩)
  else
    none

/-- A SIZE by SIZE grid of 2-D vectors, one cell per lattice point. -/
abbrev Grid (T : Type) (SIZE : ℕ) := Fin SIZE → Fin SIZE → T × T

/-- Embedding of SimulationState (simulator.rs 9-16): the two stiffness
coefficients and the position, velocity and acceleration grids. -/
structure SimulationState (T : Type) (SIZE : ℕ) where
  stiffness : T
  origin_stiffness : T
  pos : Grid T SIZE
  vel : Grid T SIZE
  acc : Grid T SIZE

/-- Embedding of Simulation (simulator.rs 3-7): the state plus the scratch
acceleration buffer used as the second half of the double buffer. -/
structure Simulation (T : Type) (SIZE : ℕ) where
  state : SimulationState T SIZE
  tmp_acc : Grid T SIZE

/-- The bounds-checked neighbor lookups compute_acc performs at cell
(i, j): the four stencil offsets added to (i, j) and passed through the
bounds check, in iteration order. -/
def neighborReads (SIZE : ℕ) (i j : Fin SIZE) : List (Option (Fin SIZE × Fin SIZE)) :=
  stencilFlat.map (fun off => filterIndicesFin SIZE ((i.val : ℤ) + off.1, (j.val : ℤ) + off.2))

/-- Embedding of Simulation::compute_acc (simulator.rs 103-142): for every
cell, the origin term is the negated position scaled by origin_stiffness;
the coupling term starts from zero and subtracts the stiffness-scaled
position of each in-bounds stencil neighbor; their sum is written to the
scratch buffer tmp_acc, and nothing else changes. -/
def compute_acc {T : Type} [CommRing T] {SIZE : ℕ} (sim : Simulation T SIZE) :
    Simulation T SIZE :=
  { sim with
    tmp_acc := fun i j =>
      let position_here := sim.state.pos i j
      let origin_acc := negV (mapV (fun a => a * sim.state.origin_stiffness) position_here)
      let coupled_acc := ((neighborReads SIZE i j).reduceOption).foldl
        (fun acc c => subV acc (mapV (fun a => a * sim.state.stiffness) (sim.state.pos c.1 c.2)))
        zeroV
      addV origin_acc coupled_acc }

/-- Embedding of Simulation::update (simulator.rs 98-101): run compute_acc,
then swap the scratch buffer with the live acceleration grid. The dt
argument is accepted and ignored, exactly as in the source. -/
def update {T : Type} [CommRing T] {SIZE : ℕ} (sim : Simulation T SIZE) (dt : T) :
    Simulation T SIZE :=
  let sim2 := compute_acc sim
  { state := { sim2.state with acc := sim2.tmp_acc }, tmp_acc := sim2.state.acc }

/-- The acceleration value the spec ascribes to cell (i, j): the origin
term -origin_stiffness * p plus the sum, over the stencil offsets whose
neighbor passes the bounds check, of -stiffness * p_neighbor. Stated from
the spec text, to be compared against compute_acc. -/
def specAcc {T : Type} [CommRing T] {SIZE : ℕ} (sim : Simulation T SIZE) (i j : Fin SIZE) :
    T × T :=
  addV (smulV (-sim.state.origin_stiffness) (sim.state.pos i j))
    (sumV (stencilFlat.filterMap
      (fun off => (filterIndicesFin SIZE ((i.val : ℤ) + off.1, (j.val : ℤ) + off.2)).map
        (fun c => smulV (-sim.state.stiffness) (sim.state.pos c.1 c.2)))))

/-- The number of coupling terms compute_acc accumulates at cell (i, j):
the number of stencil offsets whose neighbor coordinate passes the bounds
check. -/
def couplingCount (SIZE : ℕ) (i j : Fin SIZE) : ℕ :=
  ((neighborReads SIZE i j).reduceOption).length

/-- Embedding of SimulationBuilder (simulator.rs 17-22): two optional
coefficients. -/
structure SimulationBuilder (T : Type) where
  stiffness : Option T
  origin_stiffness : Option T

/-- Embedding of Simulation::build (simulator.rs 90-96): the builder with
both fields unset. -/
def build (T : Type) : SimulationBuilder T :=
  { stiffness := none, origin_stiffness := none }

/-- Embedding of the chained setter SimulationBuilder::stiffness
(simulator.rs 24-27): record the value, replacing any earlier one. -/
def SimulationBuilder.setStiffness {T : Type} (b : SimulationBuilder T) (v : T) :
    SimulationBuilder T :=
  { b with stiffness := some v }

/-- Embedding of the chained setter SimulationBuilder::origin_stiffness
(simulator.rs 29-32): record the value, replacing any earlier one. -/
def SimulationBuilder.setOriginStiffness {T : Type} (b : SimulationBuilder T) (v : T) :
    SimulationBuilder T :=
  { b with origin_stiffness := some v }

/-- Embedding of SimulationBuilder::finish (simulator.rs 34-58): unset
coefficients default to one, and every grid including the scratch buffer is
zero-initialized. -/
def SimulationBuilder.finish {T : Type} [CommRing T] (b : SimulationBuilder T) (SIZE : ℕ) :
    Simulation T SIZE :=
  { state :=
      { stiffness := b.stiffness.getD 1
        origin_stiffness := b.origin_stiffness.getD 1
        pos := fun _ _ => zeroV
        vel := fun _ _ => zeroV
        acc := fun _ _ => zeroV }
    tmp_acc := fun _ _ => zeroV }

/-- One chained builder call, for quantifying over arbitrary setter
chains. -/
inductive BuilderCall (T : Type) where
  | callStiffness (v : T)
  | callOriginStiffness (v : T)

/-- Apply one chained builder call. -/
def applyCall {T : Type} (b : SimulationBuilder T) : BuilderCall T → SimulationBuilder T
  | .callStiffness v => b.setStiffness v
  | .callOriginStiffness v => b.setOriginStiffness v

/-- The builder obtained from Simulation::build by a chain of setter
calls, applied left to right. -/
def applyCalls (T : Type) (calls : List (BuilderCall T)) : SimulationBuilder T :=
  calls.foldl applyCall (build T)

/-- The last value supplied to the stiffness setter in a chain, if any. -/
def lastStiffness {T : Type} (calls : List (BuilderCall T)) : Option T :=
  (calls.filterMap (fun c => match c with | .callStiffness v => some v | _ => none)).getLast?

/-- The last value supplied to the origin_stiffness setter in a chain, if
any. -/
def lastOriginStiffness {T : Type} (calls : List (BuilderCall T)) : Option T :=
  (calls.filterMap
    (fun c => match c with | .callOriginStiffness v => some v | _ => none)).getLast?

/-- A concrete 2 by 2 integer simulation with stiffness zero and a single
non-zero position at cell (0, 0), for evaluating the theorems. -/
def exampleSim : Simulation ℤ 2 :=
  { state :=
      { stiffness := 0
        origin_stiffness := 3
        pos := fun i j => if i = 0 ∧ j = 0 then ((5 : ℤ), (7 : ℤ)) else zeroV
        vel := fun _ _ => zeroV
        acc := fun _ _ => zeroV }
    tmp_acc := fun _ _ => zeroV }

/-! Helper lemmas: big-endian digit arithmetic underlying index and
deindex. -/

theorem toDigitsBE_length (b : ℕ) : ∀ (D k : ℕ), (toDigitsBE b D k).length = D := by
  intro D
  induction D with
  | zero => intro k; simp [toDigitsBE]
  | succ D ih => intro k; simp [toDigitsBE, ih]

theorem deindex_digits (b : ℕ) : ∀ (D k : ℕ),
    (List.range D).map (fun i => k / b ^ (D - 1 - i) % b) = toDigitsBE b D k := by
  intro D
  induction D with
  | zero => intro k; simp [toDigitsBE]
  | succ D ih =>
    intro k
    rw [List.range_succ, List.map_append, toDigitsBE]
    congr 1
    · rw [← ih (k / b)]
      refine List.map_congr_left ?_
      intro i hi
      have hiD : i < D := List.mem_range.mp hi
      have hexp : D + 1 - 1 - i = (D - 1 - i) + 1 := by omega
      rw [hexp, pow_succ', ← Nat.div_div_eq_div_mul]
    · simp

theorem ofDigitsBE_concat (b : ℕ) (ds : List ℕ) (x : ℕ) :
    ofDigitsBE b (ds ++ [x]) = ofDigitsBE b ds * b + x := by
  simp [ofDigitsBE, List.foldl_append]

theorem sum_zipWith_mul_left (b : ℕ) : ∀ (c l : List ℕ),
    (List.zipWith (fun a s => a * (b * s)) c l).sum
      = b * (List.zipWith (fun a s => a * s) c l).sum := by
  intro c
  induction c with
  | nil => intro l; simp
  | cons a c ih =>
    intro l
    cases l with
    | nil => simp
    | cons s l => simp [ih]; ring

theorem zipWith_strides_sum (b : ℕ) : ∀ (c : List ℕ),
    (List.zipWith (fun a s => a * s) c (strides b c.length)).sum = ofDigitsBE b c := by
  intro c
  induction c using List.reverseRecOn with
  | nil => simp [strides, ofDigitsBE]
  | append_singleton c x ih =>
    have hlen : (c ++ [x]).length = c.length + 1 := by simp
    rw [hlen, ofDigitsBE_concat]
    have hstr : strides b (c.length + 1)
        = (strides b c.length).map (fun s => b * s) ++ [1] := by
      rw [strides, List.range_succ, List.map_append]
      congr 1
      · rw [strides, List.map_map]
        refine List.map_congr_left ?_
        intro i hi
        have hiD : i < c.length := List.mem_range.mp hi
        have hexp : c.length + 1 - 1 - i = (c.length - 1 - i) + 1 := by omega
        simp only [Function.comp]
        rw [hexp, pow_succ']
      · simp
    rw [hstr, List.zipWith_append _ _ _ _ _ (by simp [strides]),
      List.sum_append, List.zipWith_map_right]
    simp only [List.zipWith, List.sum_cons, List.sum_nil]
    rw [sum_zipWith_mul_left, ih]
    ring

theorem ofDigitsBE_toDigitsBE (b : ℕ) : ∀ (D k : ℕ), k < b ^ D →
    ofDigitsBE b (toDigitsBE b D k) = k := by
  intro D
  induction D with
  | zero =>
    intro k hk
    have hk0 : k = 0 := by simpa using hk
    subst hk0
    simp [toDigitsBE, ofDigitsBE]
  | succ D ih =>
    intro k hk
    have hb : 0 < b := by
      rcases Nat.eq_zero_or_pos b with hb0 | hb0
      · subst hb0; simp at hk
      · exact hb0
    have hdiv : k / b < b ^ D := by
      rw [Nat.div_lt_iff_lt_mul hb, ← pow_succ]
      exact hk
    rw [toDigitsBE, ofDigitsBE_concat, ih _ hdiv, Nat.mul_comm (k / b) b,
      Nat.div_add_mod]

theorem toDigitsBE_lt (b : ℕ) : ∀ (D k : ℕ), k < b ^ D →
    ∀ x ∈ toDigitsBE b D k, x < b := by
  intro D
  induction D with
  | zero => intro k hk x hx; simp [toDigitsBE] at hx
  | succ D ih =>
    intro k hk x hx
    have hb : 0 < b := by
      rcases Nat.eq_zero_or_pos b with hb0 | hb0
      · subst hb0; simp at hk
      · exact hb0
    have hdiv : k / b < b ^ D := by
      rw [Nat.div_lt_iff_lt_mul hb, ← pow_succ]
      exact hk
    rw [toDigitsBE] at hx
    rcases List.mem_append.mp hx with hx1 | hx2
    · exact ih _ hdiv x hx1
    · have : x = k % b := by simpa using hx2
      subst this
      exact Nat.mod_lt _ hb

theorem toDigitsBE_ofDigitsBE (b : ℕ) : ∀ (c : List ℕ), (∀ x ∈ c, x < b) →
    toDigitsBE b c.length (ofDigitsBE b c) = c := by
  intro c
  induction c using List.reverseRecOn with
  | nil => intro _; simp [toDigitsBE]
  | append_singleton c x ih =>
    intro hc
    have hx : x < b := hc x (by simp)
    have hb : 0 < b := by omega
    have hlen : (c ++ [x]).length = c.length + 1 := by simp
    rw [hlen, ofDigitsBE_concat, toDigitsBE]
    have hmod : (ofDigitsBE b c * b + x) % b = x := by
      rw [Nat.mul_comm, Nat.mul_add_mod]
      exact Nat.mod_eq_of_lt hx
    have hdiv : (ofDigitsBE b c * b + x) / b = ofDigitsBE b c := by
      rw [Nat.mul_comm, Nat.mul_add_div hb, Nat.div_eq_of_lt hx, Nat.add_zero]
    rw [hmod, hdiv, ih (fun y hy => hc y (by simp [hy]))]

theorem ofDigitsBE_lt (b : ℕ) : ∀ (c : List ℕ), (∀ x ∈ c, x < b) →
    ofDigitsBE b c < b ^ c.length := by
  intro c
  induction c using List.reverseRecOn with
  | nil => intro _; simp [ofDigitsBE]
  | append_singleton c x ih =>
    intro hc
    have hx : x < b := hc x (by simp)
    have hIH : ofDigitsBE b c < b ^ c.length := ih (fun y hy => hc y (by simp [hy]))
    have hlen : (c ++ [x]).length = c.length + 1 := by simp
    rw [hlen, ofDigitsBE_concat, pow_succ]
    calc ofDigitsBE b c * b + x < ofDigitsBE b c * b + b := by omega
    _ = (ofDigitsBE b c + 1) * b := by ring
    _ ≤ b ^ c.length * b := Nat.mul_le_mul_right b hIH

theorem filter_indices_of_valid (SIZE : ℕ) (c : List ℤ)
    (h : ∀ x ∈ c, 0 ≤ x ∧ x < (SIZE : ℤ)) :
    filter_indices SIZE c = some (c.map Int.toNat) := by
  rw [filter_indices, if_pos]
  rw [List.all_eq_true]
  intro x hx
  exact decide_eq_true (h x hx)

theorem filter_indices_none_iff (SIZE : ℕ) (c : List ℤ) :
    filter_indices SIZE c = none ↔ ∃ x ∈ c, x < 0 ∨ (SIZE : ℤ) ≤ x := by
  rw [filter_indices]
  split
  · rename_i hall
    simp only [List.all_eq_true, decide_eq_true_eq] at hall
    simp only [reduceCtorEq, false_iff, not_exists, not_and, not_or, not_lt, not_le]
    intro x hx
    exact ⟨(hall x hx).1, (hall x hx).2⟩
  · rename_i hall
    simp only [List.all_eq_true, decide_eq_true_eq, not_forall] at hall
    simp only [true_iff]
    obtain ⟨x, hx, hcond⟩ := hall
    exact ⟨x, hx, by omega⟩

theorem index_of_valid (SIZE D : ℕ) (c : List ℤ)
    (h : ∀ x ∈ c, 0 ≤ x ∧ x < (SIZE : ℤ)) :
    index SIZE D c
      = some ((List.zipWith (fun a s => a * s) (c.map Int.toNat) (strides SIZE D)).sum) := by
  rw [index, filter_indices_of_valid SIZE c h]

theorem zipWith_range (f : ℕ → ℕ → ℕ) : ∀ (ix : List ℕ) (D : ℕ), ix.length = D →
    List.zipWith f ix (List.range D) = (List.range D).map (fun i => f (ix.getD i 0) i) := by
  intro ix
  induction ix generalizing f with
  | nil =>
    intro D hD
    subst hD
    simp
  | cons a ix ih =>
    intro D hD
    subst hD
    rw [List.length_cons, List.range_succ_eq_map]
    simp only [List.zipWith_cons_cons, List.map_cons, List.zipWith_map_right, List.map_map,
      Nat.succ_eq_add_one]
    congr 1
    rw [ih (fun a i => f a (i + 1)) ix.length rfl]
    refine List.map_congr_left ?_
    intro i hi
    simp [Function.comp]

theorem getD_map_toNat : ∀ (c : List ℤ) (i : ℕ),
    (c.map Int.toNat).getD i 0 = (c.getD i 0).toNat := by
  intro c
  induction c with
  | nil => intro i; simp
  | cons a c ih =>
    intro i
    cases i with
    | zero => simp
    | succ i => simpa using ih i

/-! Claim theorems. -/

/-- Claim C2: index and deindex are exact inverses on valid input. For
every SIZE, D and every flat index k below SIZE^D, deindex k succeeds with
a coordinate vector of length D whose components are all below SIZE, and
index maps that vector (cast to signed) back to k; conversely every
coordinate vector with all components in range is mapped by index to some
k below SIZE^D which deindex maps back to the vector. -/
theorem index_deindex_inverse (SIZE D : ℕ) :
    (∀ k : ℕ, k < SIZE ^ D →
      ∃ c : List ℕ, deindex SIZE D ((k : ℕ) : ℤ) = some c ∧ c.length = D ∧
        (∀ x ∈ c, x < SIZE) ∧ index SIZE D (c.map (fun x => ((x : ℕ) : ℤ))) = some k) ∧
    (∀ c : List ℤ, c.length = D → (∀ x ∈ c, 0 ≤ x ∧ x < (SIZE : ℤ)) →
      ∃ k : ℕ, index SIZE D c = some k ∧ k < SIZE ^ D ∧
        deindex SIZE D ((k : ℕ) : ℤ) = some (c.map Int.toNat)) := by
  constructor
  · intro k hk
    refine ⟨toDigitsBE SIZE D k, ?_, toDigitsBE_length SIZE D k, toDigitsBE_lt SIZE D k hk, ?_⟩
    · rw [deindex, if_pos (by constructor <;> [positivity; exact_mod_cast hk])]
      congr 1
      rw [← deindex_digits SIZE D k]
      simp
    · have hval : ∀ x ∈ (toDigitsBE SIZE D k).map (fun x => ((x : ℕ) : ℤ)),
          0 ≤ x ∧ x < (SIZE : ℤ) := by
        intro x hx
        obtain ⟨y, hy, rfl⟩ := List.mem_map.mp hx
        have := toDigitsBE_lt SIZE D k hk y hy
        constructor <;> [positivity; exact_mod_cast this]
      rw [index_of_valid SIZE D _ hval]
      congr 1
      rw [List.map_map]
      have hid : (toDigitsBE SIZE D k).map (Int.toNat ∘ fun x => ((x : ℕ) : ℤ))
          = toDigitsBE SIZE D k := by
        refine List.map_congr_left ?_ |>.trans (List.map_id _)
        intro a _
        simp [Function.comp]
      rw [hid]
      have hlen : (toDigitsBE SIZE D k).length = D := toDigitsBE_length SIZE D k
      set L := toDigitsBE SIZE D k with hLdef
      rw [← hlen, zipWith_strides_sum SIZE L, hLdef]
      exact ofDigitsBE_toDigitsBE SIZE D k hk
  · intro c hlen hval
    refine ⟨ofDigitsBE SIZE (c.map Int.toNat), ?_, ?_, ?_⟩
    · rw [index_of_valid SIZE D c hval]
      congr 1
      have hlen2 : (c.map Int.toNat).length = D := by simpa using hlen
      rw [← hlen2, zipWith_strides_sum SIZE]
    · have hlt : ∀ x ∈ c.map Int.toNat, x < SIZE := by
        intro x hx
        obtain ⟨y, hy, rfl⟩ := List.mem_map.mp hx
        have := hval y hy
        omega
      have := ofDigitsBE_lt SIZE (c.map Int.toNat) hlt
      simpa [hlen] using this
    · have hlt : ∀ x ∈ c.map Int.toNat, x < SIZE := by
        intro x hx
        obtain ⟨y, hy, rfl⟩ := List.mem_map.mp hx
        have := hval y hy
        omega
      have hbound := ofDigitsBE_lt SIZE (c.map Int.toNat) hlt
      rw [deindex, if_pos]
      · congr 1
        simp only [Int.toNat_natCast]
        rw [deindex_digits SIZE D]
        have hlen2 : (c.map Int.toNat).length = D := by simpa using hlen
        rw [← hlen2]
        exact toDigitsBE_ofDigitsBE SIZE (c.map Int.toNat) hlt
      · constructor
        · positivity
        · have : ofDigitsBE SIZE (c.map Int.toNat) < SIZE ^ D := by
            simpa [hlen] using hbound
          exact_mod_cast this

/-- Claim C2, witness at SIZE 10, D 2, k 99: the hypotheses hold and the
instantiated conclusion follows by applying the theorem. -/
theorem index_deindex_inverse_witness :
    99 < 10 ^ 2 ∧
    (∃ c : List ℕ, deindex 10 2 ((99 : ℕ) : ℤ) = some c ∧ c.length = 2 ∧
      (∀ x ∈ c, x < 10) ∧ index 10 2 (c.map (fun x => ((x : ℕ) : ℤ))) = some 99) :=
  ⟨by norm_num, (index_deindex_inverse 10 2).1 99 (by norm_num)⟩

/-- Claim C3: bounds rejection is total and exact. filter_indices and index
return the absence value exactly when some component is negative or at
least SIZE, and deindex returns the absence value exactly when the flat
index is negative or at least SIZE^D; being total Lean functions, they
fail in no other way. -/
theorem bounds_rejection (SIZE D : ℕ) (c : List ℤ) (k : ℤ) :
    (filter_indices SIZE c = none ↔ ∃ x ∈ c, x < 0 ∨ (SIZE : ℤ) ≤ x) ∧
    (index SIZE D c = none ↔ ∃ x ∈ c, x < 0 ∨ (SIZE : ℤ) ≤ x) ∧
    (deindex SIZE D k = none ↔ k < 0 ∨ (SIZE : ℤ) ^ D ≤ k) := by
  refine ⟨filter_indices_none_iff SIZE c, ?_, ?_⟩
  · rw [← filter_indices_none_iff SIZE c, index]
    cases filter_indices SIZE c <;> simp
  · rw [deindex]
    split
    · rename_i hin
      simp only [reduceCtorEq, false_iff]
      omega
    · rename_i hin
      simp only [true_iff]
      omega

/-- Claim C4: on valid coordinates, index returns exactly the row-major
flat index, the sum over axes of coordinate times SIZE^(D-1-i) with the
last axis fastest-varying; together with the three concrete orderings
SIZE 100 [2,10] to 210, SIZE 10 [9,9] to 99 and [0,0] to 0. -/
theorem index_row_major (SIZE D : ℕ) (c : List ℤ) (hlen : c.length = D)
    (hval : ∀ x ∈ c, 0 ≤ x ∧ x < (SIZE : ℤ)) :
    index SIZE D c = some (rowMajorSum SIZE D c) ∧
    index 100 2 [2, 10] = some 210 ∧
    index 10 2 [9, 9] = some 99 ∧
    index 10 2 [0, 0] = some 0 := by
  refine ⟨?_, by decide, by decide, by decide⟩
  rw [index_of_valid SIZE D c hval, rowMajorSum]
  congr 1
  have hlen2 : (c.map Int.toNat).length = D := by simpa using hlen
  rw [strides, List.zipWith_map_right,
    zipWith_range (fun a i => a * SIZE ^ (D - 1 - i)) (c.map Int.toNat) D hlen2]
  congr 1
  refine List.map_congr_left ?_
  intro i hi
  rw [getD_map_toNat]

/-- Claim C4, witness at SIZE 100, D 2, c [2, 10]: the hypotheses hold and
the instantiated conclusion follows by applying the theorem. -/
theorem index_row_major_witness :
    ([2, 10] : List ℤ).length = 2 ∧ (∀ x ∈ ([2, 10] : List ℤ), 0 ≤ x ∧ x < (100 : ℤ)) ∧
    (index 100 2 [2, 10] = some (rowMajorSum 100 2 [2, 10]) ∧
      index 100 2 [2, 10] = some 210 ∧
      index 10 2 [9, 9] = some 99 ∧
      index 10 2 [0, 0] = some 0) :=
  ⟨by decide, by decide, index_row_major 100 2 [2, 10] (by decide) (by decide)⟩

/-! Helper lemmas: 2-D vector algebra and the coupling fold. -/

theorem addV_zeroV {T : Type} [CommRing T] (a : T × T) : addV a zeroV = a := by
  simp [addV, zeroV]

theorem subV_zeroV_left {T : Type} [CommRing T] (v : T × T) : subV zeroV v = negV v := by
  simp [subV, zeroV, negV]

theorem negV_mapV_mul {T : Type} [CommRing T] (k : T) (v : T × T) :
    negV (mapV (fun a => a * k) v) = smulV (-k) v := by
  simp only [negV, mapV, smulV, Prod.mk.injEq]
  constructor <;> ring

theorem smulV_zero_coeff {T : Type} [CommRing T] (v : T × T) : smulV (-(0 : T)) v = zeroV := by
  simp only [smulV, zeroV, Prod.mk.injEq]
  constructor <;> ring

theorem smulV_zeroV {T : Type} [CommRing T] (k : T) : smulV k (zeroV : T × T) = zeroV := by
  simp only [smulV, zeroV, Prod.mk.injEq]
  constructor <;> ring

theorem sumV_cons {T : Type} [Add T] [Zero T] (x : T × T) (l : List (T × T)) :
    sumV (x :: l) = addV x (sumV l) := rfl

theorem foldl_subV {T : Type} [CommRing T] {α : Type} (t : α → T × T) :
    ∀ (L : List α) (a : T × T),
      L.foldl (fun acc c => subV acc (t c)) a = subV a (sumV (L.map t)) := by
  intro L
  induction L with
  | nil => intro a; simp [sumV, subV, zeroV]
  | cons c L ih =>
    intro a
    rw [List.foldl_cons, ih, List.map_cons, sumV_cons]
    simp only [subV, addV, Prod.mk.injEq]
    constructor <;> ring

theorem sumV_map_negV {T : Type} [CommRing T] {α : Type} (t : α → T × T) :
    ∀ (L : List α), sumV (L.map (fun c => negV (t c))) = negV (sumV (L.map t)) := by
  intro L
  induction L with
  | nil =>
    simp only [List.map_nil]
    show (zeroV : T × T) = negV zeroV
    simp [negV, zeroV]
  | cons c L ih =>
    simp only [List.map_cons]
    rw [sumV_cons, sumV_cons, ih]
    simp only [addV, negV, Prod.mk.injEq]
    constructor <;> ring

theorem sumV_eq_zero {T : Type} [CommRing T] :
    ∀ (L : List (T × T)), (∀ x ∈ L, x = zeroV) → sumV L = zeroV := by
  intro L
  induction L with
  | nil => intro _; rfl
  | cons a L ih =>
    intro h
    show addV a (sumV L) = zeroV
    rw [h a (by simp), ih (fun x hx => h x (by simp [hx])), addV_zeroV]

theorem reduceOption_map_filterMap {α β : Type} (f : α → Option β) :
    ∀ (l : List α), (l.map f).reduceOption = l.filterMap f := by
  intro l
  induction l with
  | nil => rfl
  | cons a l ih =>
    rw [List.map_cons, List.filterMap_cons]
    cases h : f a with
    | none => simpa [List.reduceOption_cons_of_none] using ih
    | some b => simpa [List.reduceOption_cons_of_some] using ih

/-- The coupling-fold of compute_acc, rewritten as the spec states it: the
scratch value at every cell is the origin term plus the sum of the
stiffness-scaled in-bounds neighbor positions, each negated. Shared by the
claims about compute_acc. -/
theorem compute_acc_spec {T : Type} [CommRing T] {SIZE : ℕ} (sim : Simulation T SIZE)
    (i j : Fin SIZE) : (compute_acc sim).tmp_acc i j = specAcc sim i j := by
  rw [compute_acc, specAcc]
  simp only
  rw [foldl_subV, subV_zeroV_left, neighborReads, reduceOption_map_filterMap,
    ← List.map_filterMap, negV_mapV_mul]
  congr 1
  have hmap : (fun c : Fin SIZE × Fin SIZE => smulV (-sim.state.stiffness) (sim.state.pos c.1 c.2))
      = fun c => negV (mapV (fun a => a * sim.state.stiffness) (sim.state.pos c.1 c.2)) := by
    funext c
    rw [negV_mapV_mul]
  rw [hmap, sumV_map_negV]

/-- Claim C1: at every cell (i, j), the acceleration compute_acc writes to
the scratch buffer equals the origin term -origin_stiffness * pos(i, j)
plus the sum over the in-bounds stencil neighbors of -stiffness times the
neighbor position, out-of-bounds neighbors contributing nothing; and the
live acceleration grid is untouched by compute_acc. -/
theorem compute_acc_formula {T : Type} [CommRing T] {SIZE : ℕ} (sim : Simulation T SIZE)
    (i j : Fin SIZE) :
    (compute_acc sim).tmp_acc i j = specAcc sim i j ∧
    (compute_acc sim).state.acc = sim.state.acc :=
  ⟨compute_acc_spec sim i j, rfl⟩

/-- Claim C5: in an N by N lattice with N above one, the bounds check
passes for exactly 2 of the 4 stencil offsets at a corner cell, exactly 3
at an edge cell that is not a corner, and exactly 4 at an interior
cell. -/
theorem coupling_count_classify (N : ℕ) (hN : 1 < N) (i j : Fin N) :
    (((i.val = 0 ∨ i.val = N - 1) ∧ (j.val = 0 ∨ j.val = N - 1)) →
      couplingCount N i j = 2) ∧
    ((((i.val = 0 ∨ i.val = N - 1) ∧ ¬(j.val = 0 ∨ j.val = N - 1)) ∨
      (¬(i.val = 0 ∨ i.val = N - 1) ∧ (j.val = 0 ∨ j.val = N - 1))) →
      couplingCount N i j = 3) ∧
    ((¬(i.val = 0 ∨ i.val = N - 1) ∧ ¬(j.val = 0 ∨ j.val = N - 1)) →
      couplingCount N i j = 4) := by
  have hi := i.isLt
  have hj := j.isLt
  have key : couplingCount N i j
      = (if (i.val : ℤ) + 1 < (N : ℤ) then 1 else 0)
        + (if 1 ≤ (i.val : ℤ) then 1 else 0)
        + (if (j.val : ℤ) + 1 < (N : ℤ) then 1 else 0)
        + (if 1 ≤ (j.val : ℤ) then 1 else 0) := by
    rw [couplingCount, neighborReads, stencilFlat, STENCIL]
    simp only [List.flatten, List.map_cons, List.map_nil, List.append_nil, List.cons_append,
      List.nil_append, filterIndicesFin]
    split_ifs <;>
      simp_all [List.reduceOption_cons_of_some, List.reduceOption_cons_of_none] <;>
      omega
  refine ⟨?_, ?_, ?_⟩ <;> intro h <;> rw [key] <;> split_ifs <;> omega

/-- Claim C5, witness at N 3: corner cell (0,0) couples to exactly 2
neighbors, and the hypothesis 1 less than 3 holds. -/
theorem coupling_count_classify_witness :
    1 < 3 ∧ couplingCount 3 0 0 = 2 :=
  ⟨by norm_num,
    (coupling_count_classify 3 (by norm_num) 0 0).1 (by simp)⟩

/-- Claim C6: update mutates only the acceleration field of the state.
Position, velocity and the two stiffness coefficients are unchanged by
update, and therefore any number of repeated updates leaves the position
field identical to its initial value. -/
theorem update_mutates_only_acc {T : Type} [CommRing T] {SIZE : ℕ} (sim : Simulation T SIZE)
    (dt : T) :
    (update sim dt).state.pos = sim.state.pos ∧
    (update sim dt).state.vel = sim.state.vel ∧
    (update sim dt).state.stiffness = sim.state.stiffness ∧
    (update sim dt).state.origin_stiffness = sim.state.origin_stiffness ∧
    ∀ n : ℕ, ((fun s => update s dt)^[n] sim).state.pos = sim.state.pos := by
  refine ⟨rfl, rfl, rfl, rfl, ?_⟩
  intro n
  induction n with
  | zero => rfl
  | succ n ih =>
    rw [Function.iterate_succ_apply']
    have hstep : ∀ s : Simulation T SIZE, (update s dt).state.pos = s.state.pos :=
      fun s => rfl
    rw [hstep, ih]

/-- Claim C9: with the position field unchanged across calls, a second
update (with any dt) recomputes the same acceleration grid, so any chain
of further updates leaves the acceleration grid equal to its value after
the first call. -/
theorem update_repeat_acc {T : Type} [CommRing T] {SIZE : ℕ} (sim : Simulation T SIZE)
    (dt1 dt2 : T) :
    (update (update sim dt1) dt2).state.acc = (update sim dt1).state.acc ∧
    ∀ dts : List T, (dts.foldl update (update sim dt1)).state.acc
      = (update sim dt1).state.acc := by
  have key : ∀ (s : Simulation T SIZE) (a b : T),
      (update (update s a) b).state.acc = (update s a).state.acc := fun s a b => rfl
  refine ⟨key sim dt1 dt2, ?_⟩
  have gen : ∀ (dts : List T) (s : Simulation T SIZE) (a : T),
      (dts.foldl update (update s a)).state.acc = (update s a).state.acc := by
    intro dts
    induction dts with
    | nil => intro s a; rfl
    | cons d dts ih =>
      intro s a
      rw [List.foldl_cons, ih (update s a) d, key s a d]
  exact fun dts => gen dts sim dt1

/-- Claim C10: the result of update is independent of the dt argument.
Running update with any two time steps from equal simulations yields equal
simulations; dt influences no field at all. -/
theorem update_dt_independent {T : Type} [CommRing T] {SIZE : ℕ}
    (s1 s2 : Simulation T SIZE) (dt1 dt2 : T) (h : s1 = s2) :
    update s1 dt1 = update s2 dt2 := by
  subst h
  rfl

/-- Claim C10, witness: two updates of the example simulation with
different time steps coincide. -/
theorem update_dt_independent_witness :
    exampleSim = exampleSim ∧ update exampleSim 1 = update exampleSim 2 :=
  ⟨rfl, update_dt_independent exampleSim exampleSim 1 2 rfl⟩

theorem applyCalls_fields {T : Type} : ∀ (calls : List (BuilderCall T)),
    (applyCalls T calls).stiffness = lastStiffness calls ∧
    (applyCalls T calls).origin_stiffness = lastOriginStiffness calls := by
  intro calls
  induction calls using List.reverseRecOn with
  | nil => exact ⟨rfl, rfl⟩
  | append_singleton calls c ih =>
    have happ : applyCalls T (calls ++ [c]) = applyCall (applyCalls T calls) c := by
      rw [applyCalls, applyCalls, List.foldl_append, List.foldl_cons, List.foldl_nil]
    rw [happ]
    cases c with
    | callStiffness v =>
      constructor
      · show some v = lastStiffness (calls ++ [BuilderCall.callStiffness v])
        rw [lastStiffness, List.filterMap_append]
        simp [List.getLast?_concat]
      · show (applyCalls T calls).origin_stiffness
          = lastOriginStiffness (calls ++ [BuilderCall.callStiffness v])
        rw [lastOriginStiffness, List.filterMap_append, ih.2, lastOriginStiffness]
        simp
    | callOriginStiffness v =>
      constructor
      · show (applyCalls T calls).stiffness
          = lastStiffness (calls ++ [BuilderCall.callOriginStiffness v])
        rw [lastStiffness, List.filterMap_append, ih.1, lastStiffness]
        simp
      · show some v = lastOriginStiffness (calls ++ [BuilderCall.callOriginStiffness v])
        rw [lastOriginStiffness, List.filterMap_append]
        simp [List.getLast?_concat]

/-- Claim C7: after any chain of setter calls, finish produces a
simulation whose coefficients are the last value supplied to the
respective setter, defaulting to the multiplicative identity 1 when a
setter was never called, and whose position, velocity, acceleration and
scratch grids are zero everywhere. -/
theorem builder_finish_defaults {T : Type} [CommRing T] (SIZE : ℕ)
    (calls : List (BuilderCall T)) :
    ((applyCalls T calls).finish SIZE).state.stiffness = (lastStiffness calls).getD 1 ∧
    ((applyCalls T calls).finish SIZE).state.origin_stiffness
      = (lastOriginStiffness calls).getD 1 ∧
    ∀ i j : Fin SIZE,
      ((applyCalls T calls).finish SIZE).state.pos i j = zeroV ∧
      ((applyCalls T calls).finish SIZE).state.vel i j = zeroV ∧
      ((applyCalls T calls).finish SIZE).state.acc i j = zeroV ∧
      ((applyCalls T calls).finish SIZE).tmp_acc i j = zeroV := by
  refine ⟨?_, ?_, fun i j => ⟨rfl, rfl, rfl, rfl⟩⟩
  · show (applyCalls T calls).stiffness.getD 1 = (lastStiffness calls).getD 1
    rw [(applyCalls_fields calls).1]
  · show (applyCalls T calls).origin_stiffness.getD 1 = (lastOriginStiffness calls).getD 1
    rw [(applyCalls_fields calls).2]

/-- Claim C8: with stiffness zero and a position field that is zero except
a single value p at cell (i0, j0), one update step yields an acceleration
of -origin_stiffness * p at (i0, j0) and the zero vector everywhere
else. -/
theorem origin_only_regime {T : Type} [CommRing T] {SIZE : ℕ} (sim : Simulation T SIZE)
    (i0 j0 : Fin SIZE) (p : T × T) (dt : T)
    (hstiff : sim.state.stiffness = 0)
    (hpos : ∀ i j, sim.state.pos i j = if i = i0 ∧ j = j0 then p else zeroV) :
    ∀ i j, (update sim dt).state.acc i j
      = if i = i0 ∧ j = j0 then smulV (-sim.state.origin_stiffness) p else zeroV := by
  intro i j
  have hacc : (update sim dt).state.acc i j = (compute_acc sim).tmp_acc i j := rfl
  rw [hacc, compute_acc_spec, specAcc]
  have hz : ∀ x ∈ stencilFlat.filterMap
      (fun off => (filterIndicesFin SIZE ((i.val : ℤ) + off.1, (j.val : ℤ) + off.2)).map
        (fun c => smulV (-sim.state.stiffness) (sim.state.pos c.1 c.2))), x = zeroV := by
    intro x hx
    obtain ⟨off, hoff, hsome⟩ := List.mem_filterMap.mp hx
    cases hF : filterIndicesFin SIZE ((i.val : ℤ) + off.1, (j.val : ℤ) + off.2) with
    | none => rw [hF] at hsome; simp at hsome
    | some c =>
      rw [hF] at hsome
      simp only [Option.map_some'] at hsome
      obtain rfl : smulV (-sim.state.stiffness) (sim.state.pos c.1 c.2) = x :=
        Option.some.inj hsome
      rw [hstiff, smulV_zero_coeff]
  rw [sumV_eq_zero _ hz, addV_zeroV, hpos i j]
  split_ifs with h
  · rfl
  · exact smulV_zeroV _

/-- Claim C8, witness on the example simulation: stiffness is zero, the
position field has a single non-zero cell at (0, 0), and applying the
theorem gives the predicted accelerations at (0, 0) and (1, 0). -/
theorem origin_only_regime_witness :
    exampleSim.state.stiffness = 0 ∧
    (∀ i j, exampleSim.state.pos i j
      = if i = (0 : Fin 2) ∧ j = (0 : Fin 2) then ((5 : ℤ), (7 : ℤ)) else zeroV) ∧
    (update exampleSim 1).state.acc 0 0
      = smulV (-exampleSim.state.origin_stiffness) ((5 : ℤ), (7 : ℤ)) ∧
    (update exampleSim 1).state.acc 1 0 = zeroV := by
  refine ⟨rfl, fun i j => rfl, ?_, ?_⟩
  · have h := origin_only_regime exampleSim 0 0 ((5 : ℤ), (7 : ℤ)) 1 rfl (fun i j => rfl) 0 0
    simpa using h
  · have h := origin_only_regime exampleSim 0 0 ((5 : ℤ), (7 : ℤ)) 1 rfl (fun i j => rfl) 1 0
    simpa using h

end RTDriver
